import Mathlib

/-!
Verification of the query-resolution engine of `myougiden_api.py` (the
`run` function).  The engine builds an ordered list of search conditions
from a raw query and user-selected axes (field, extent, regexp mode), then
hands them in priority order to an external matcher which stops at the
first condition producing results.

External collaborators (the `myougiden` package's `texttools`, `search`
and the `romkan` transliteration library) are not part of this repository's
sources; the embedding is parameterized over them (`TextTools`, `Romkan`)
or, for the match cascade `search.guess`, modelled from the specification.
-/

namespace MyougidenApi

/-- The search-condition record handed to the matcher: the `search_args`
dictionary of `run` (myougiden_api.py lines 216-222), restricted to the keys
`field`, `query`, `extent`, `regexp`, `case_sensitive`, `frequent`. -/
structure SearchArgs where
  field : String
  query : String
  extent : String
  regexp : Bool
  case_sensitive : Bool
  frequent : Bool
deriving DecidableEq, Repr

/-- The external text-classification helpers of `myougiden.texttools`
(`tt.is_latin`, `tt.is_romaji`, `tt.is_kana`, `tt.has_regexp_special`,
`tt.expand_romaji`).  They live outside this repository, so the embedding
takes them as parameters. -/
structure TextTools where
  is_latin : String → Bool
  is_romaji : String → Bool
  is_kana : String → Bool
  has_regexp_special : String → Bool
  expand_romaji : String → List String

/-- The external `romkan` transliteration functions used by `run`. -/
structure Romkan where
  to_hiragana : String → String
  to_katakana : String → String

/-- Embeds `re.search("[A-Z]", s)` (lines 151 and 287): true iff the string
contains an ASCII uppercase letter. -/
def hasUpper (s : String) : Bool :=
  s.data.any fun ch => decide ('A' ≤ ch) && decide (ch ≤ 'Z')

/-- Embeds lines 150-152: absent an explicit `--case-sensitive` override,
the flag is switched on when the query contains an uppercase letter. -/
def resolveCaseSensitive (case_sensitive : Bool) (query : String) : Bool :=
  if !case_sensitive then
    if hasUpper query then true else case_sensitive
  else case_sensitive

/-- Embeds lines 211-213: an explicit `word` extent is rewritten to `whole`
when the user pinned the field to kanji or reading. -/
def normalizeExtent (extent field : String) : String :=
  if extent = "word" ∧ (field = "kanji" ∨ field = "reading") then "whole" else extent

/-- Embeds lines 229-241: the field trial order; for `auto` it is decided by
the classification predicates, tried in the source's `elif` priority. -/
def resolveFields (tt : TextTools) (field query : String) : List String :=
  if field = "auto" then
    if tt.is_latin query then ["gloss", "reading", "kanji"]
    else if tt.is_romaji query then ["reading", "gloss", "kanji"]
    else if tt.is_kana query then ["reading", "kanji", "gloss"]
    else ["kanji", "reading", "gloss"]
  else [field]

/-- Embeds lines 243-246: the extent axis; `auto` tries whole, word, partial. -/
def resolveExtents (extent : String) : List String :=
  if extent ≠ "auto" then [extent] else ["whole", "word", "partial"]

/-- Embeds lines 248-253: the regexp-mode axis. -/
def resolveRegexpFlags (tt : TextTools) (regexp : Bool) (query : String) : List Bool :=
  if regexp then [true]
  else if tt.has_regexp_special query then [false, true]
  else [false]

/-- Embeds the body of the generation loop (lines 260-282): the condition
appended for one (regexp, extent, field) combination, `none` when the
combination is skipped by the `continue`.  `extentSpec` is the value of
`args.extent` tested at line 264. -/
def genCondition (search_args : SearchArgs) (extentSpec : String) (regexp : Bool)
    (extent field : String) : Option SearchArgs :=
  if extent = "word" ∧ field ≠ "gloss" then
    if extentSpec = "auto" then
      none
    else
      some { search_args with extent := "whole", field := field, regexp := regexp }
  else
    some { search_args with extent := extent, field := field, regexp := regexp }

/-- Embeds the nested generation loops of lines 255-282: regexp modes
outermost, then extents, then fields innermost. -/
def generateConditions (search_args : SearchArgs) (extentSpec : String)
    (regexp_flags : List Bool) (extents fields : List String) : List SearchArgs :=
  regexp_flags.flatMap fun regexp =>
    extents.flatMap fun extent =>
      fields.filterMap fun field =>
        genCondition search_args extentSpec regexp extent field

/-- Embeds lines 287-290: the kana-conversion order, katakana first when the
query contains an uppercase letter, hiragana first otherwise. -/
def kanaGuess (rk : Romkan) (query : String) : List (String → String) :=
  if hasUpper query then [rk.to_katakana, rk.to_hiragana]
  else [rk.to_hiragana, rk.to_katakana]

/-- Embeds the two inner loops of lines 295-304: for each kana function and
each expanded romaji variant, a copy of `oldcond` carrying the kana query is
inserted at the current index of `oldcond` (Python
`new_conditions.insert(new_conditions.index(oldcond), newcond)`). -/
def insertKanaVariants (tt : TextTools) (kana_guess : List (String → String))
    (nc : List SearchArgs) (oldcond : SearchArgs) : List SearchArgs :=
  kana_guess.foldl
    (fun nc1 kanafn =>
      (tt.expand_romaji oldcond.query).foldl
        (fun nc2 romaji =>
          nc2.insertIdx (nc2.indexOf oldcond) { oldcond with query := kanafn romaji })
        nc1)
    nc

/-- Embeds one iteration of the loop at line 293: only conditions whose field
is `reading` receive kana variants. -/
def expandStep (tt : TextTools) (kana_guess : List (String → String))
    (nc : List SearchArgs) (oldcond : SearchArgs) : List SearchArgs :=
  if oldcond.field = "reading" then insertKanaVariants tt kana_guess nc oldcond
  else nc

/-- Embeds lines 292-305: iterate over the original condition list, growing a
copy of it by insertion. -/
def expandConditions (tt : TextTools) (rk : Romkan) (query : String)
    (conditions : List SearchArgs) : List SearchArgs :=
  conditions.foldl (expandStep tt (kanaGuess rk query)) conditions

/-- The condition list produced by the combinatorial generation pass of `run`
(lines 150-282), before the rōmaji expansion: case-sensitivity resolution,
extent normalization, axis resolution and the nested loops. -/
def generatedList (tt : TextTools) (field extent : String)
    (regexp case_sensitive frequent : Bool) (query : String) : List SearchArgs :=
  let cs := resolveCaseSensitive case_sensitive query
  let extentSpec := normalizeExtent extent field
  let search_args : SearchArgs :=
    { field := field, query := query, extent := extentSpec,
      regexp := regexp, case_sensitive := cs, frequent := frequent }
  generateConditions search_args extentSpec
    (resolveRegexpFlags tt regexp query)
    (resolveExtents extentSpec)
    (resolveFields tt field query)

/-- The final condition list of `run` (lines 150-305): the generated list,
expanded with kana variants when the field is auto or reading and the query
looks like rōmaji (line 285). -/
def runConditions (tt : TextTools) (rk : Romkan) (field extent : String)
    (regexp case_sensitive frequent : Bool) (query : String) : List SearchArgs :=
  let conditions := generatedList tt field extent regexp case_sensitive frequent query
  if (field = "auto" ∨ field = "reading") ∧ tt.is_romaji query then
    expandConditions tt rk query conditions
  else conditions

/-- Failures of the matcher boundary (spec section 6): the store being
unreachable, or a malformed regexp pattern. -/
inductive MatcherError
  | matcherUnavailable
  | invalidPattern
deriving DecidableEq, Repr

/-- Modelled from the spec: `search.guess` lives in the external `myougiden`
package (`from myougiden import search`), not in this repository's sources.
Spec section 4.4: iterate the condition list strictly in order, invoke the
matcher once per condition, stop at the first non-empty identifier list and
return it with the winning condition; return `(none, [])` when the list is
exhausted; matcher failures propagate and abort the cascade. -/
def guess (matcher : SearchArgs → Except MatcherError (List Nat)) :
    List SearchArgs → Except MatcherError (Option SearchArgs × List Nat)
  | [] => .ok (none, [])
  | cond :: rest =>
    match matcher cond with
    | .error e => .error e
    | .ok ent_seqs =>
      if ent_seqs = [] then guess matcher rest else .ok (some cond, ent_seqs)

/-- Modelled from the spec: the sequence of conditions `guess` actually hands
to the matcher, in invocation order (one entry per matcher call). -/
def guessCalls (matcher : SearchArgs → Except MatcherError (List Nat)) :
    List SearchArgs → List SearchArgs
  | [] => []
  | cond :: rest =>
    match matcher cond with
    | .error _ => [cond]
    | .ok ent_seqs =>
      if ent_seqs = [] then cond :: guessCalls matcher rest else [cond]

/-- Embeds the tail of `run` (lines 308-340): the cascade outcome is
destructured and a winning condition leads to a rendered result, while a
`none` winner makes `run` return `None`; matcher failures propagate (the
rendering externals are elided, the winning condition and identifier list
stand for the rendered output). -/
def runResult (matcher : SearchArgs → Except MatcherError (List Nat))
    (conds : List SearchArgs) : Except MatcherError (Option (SearchArgs × List Nat)) :=
  match guess matcher conds with
  | .error e => .error e
  | .ok (some chosen_search, ent_seqs) => .ok (some (chosen_search, ent_seqs))
  | .ok (none, _) => .ok none

/-- Rank of a stored extent in the auto trial order (whole, word, partial);
used only to state ordering theorems. -/
def extentRank : String → Nat
  | "whole" => 0
  | "word" => 1
  | "partial" => 2
  | _ => 3

/-! Concrete instantiations of the external collaborators, used to evaluate
the engine on explicit inputs. -/

/-- A classification where the query counts as pure Latin text and nothing
else (the shape `tt` takes on a plain English query such as "cat"). -/
def ttLatinOnly : TextTools :=
  { is_latin := fun _ => true, is_romaji := fun _ => false, is_kana := fun _ => false,
    has_regexp_special := fun _ => false, expand_romaji := fun s => [s] }

/-- A classification where the query counts as Latin and rōmaji-convertible. -/
def ttRomaji : TextTools :=
  { is_latin := fun _ => true, is_romaji := fun _ => true, is_kana := fun _ => false,
    has_regexp_special := fun _ => false, expand_romaji := fun s => [s] }

/-- A classification where the query contains a regexp-special character
(such as "a.b"). -/
def ttDot : TextTools :=
  { is_latin := fun _ => true, is_romaji := fun _ => false, is_kana := fun _ => false,
    has_regexp_special := fun _ => true, expand_romaji := fun s => [s] }

/-- Stub kana renderers that tag the string instead of transliterating. -/
def rkStub : Romkan :=
  { to_hiragana := fun s => "h" ++ s, to_katakana := fun s => "k" ++ s }

/-- A matcher stub that matches only partial-extent conditions. -/
def matcherStub : SearchArgs → Except MatcherError (List Nat) :=
  fun c => if c.extent = "partial" then .ok [7] else .ok []

/-- A whole-extent gloss condition for the query "cat". -/
def condWhole : SearchArgs :=
  { field := "gloss", query := "cat", extent := "whole",
    regexp := false, case_sensitive := false, frequent := false }

/-- A word-extent gloss condition for the query "cat". -/
def condWord : SearchArgs :=
  { field := "gloss", query := "cat", extent := "word",
    regexp := false, case_sensitive := false, frequent := false }

/-- A partial-extent gloss condition for the query "cat". -/
def condPartial : SearchArgs :=
  { field := "gloss", query := "cat", extent := "partial",
    regexp := false, case_sensitive := false, frequent := false }

/-! Claim theorems. -/

/-- C8: absent an explicit override, the derived case-sensitivity flag is
false exactly when the query contains no uppercase Latin letter and true
exactly when it contains at least one. -/
theorem case_sensitivity_default (query : String) :
    (resolveCaseSensitive false query = true ↔
      ∃ ch ∈ query.data, 'A' ≤ ch ∧ ch ≤ 'Z') ∧
    (resolveCaseSensitive false query = false ↔
      ∀ ch ∈ query.data, ¬('A' ≤ ch ∧ ch ≤ 'Z')) := by
  have h : resolveCaseSensitive false query = hasUpper query := by
    simp [resolveCaseSensitive]
  rw [h]
  constructor
  · simp [hasUpper, List.any_eq_true]
  · rw [← Bool.not_eq_true]
    simp [hasUpper, List.any_eq_true]

/-- C2: with field_spec auto, the field trial order is a length-3 permutation
of kanji, reading, gloss, decided by classification in the source's priority:
gloss-reading-kanji for pure Latin, reading-gloss-kanji for rōmaji-looking
Latin, reading-kanji-gloss for kana, kanji-reading-gloss otherwise. -/
theorem auto_field_order (tt : TextTools) (query : String) :
    (resolveFields tt "auto" query).Perm ["kanji", "reading", "gloss"] ∧
    (tt.is_latin query = true →
      resolveFields tt "auto" query = ["gloss", "reading", "kanji"]) ∧
    (tt.is_latin query = false → tt.is_romaji query = true →
      resolveFields tt "auto" query = ["reading", "gloss", "kanji"]) ∧
    (tt.is_latin query = false → tt.is_romaji query = false →
        tt.is_kana query = true →
      resolveFields tt "auto" query = ["reading", "kanji", "gloss"]) ∧
    (tt.is_latin query = false → tt.is_romaji query = false →
        tt.is_kana query = false →
      resolveFields tt "auto" query = ["kanji", "reading", "gloss"]) := by
  unfold resolveFields
  cases h1 : tt.is_latin query <;> cases h2 : tt.is_romaji query <;>
    cases h3 : tt.is_kana query <;> simp <;> decide

/-- C2 witness: a pure-Latin query gets the gloss-first order. -/
theorem auto_field_order_witness :
    resolveFields ttLatinOnly "auto" "cat" = ["gloss", "reading", "kanji"] :=
  (auto_field_order ttLatinOnly "cat").2.1 rfl

/-- C6 counterexample: for the query "a.b", which carries a regexp-special
character, generation with extent_spec word and field_spec kanji yields two
conditions (a literal pass and a regexp pass), not exactly one; both are
normalized to extent whole. -/
theorem word_kanji_counterexample :
    (runConditions ttDot rkStub "kanji" "word" false false false "a.b").map
        (fun c => (c.field, c.extent, c.regexp))
      = [("kanji", "whole", false), ("kanji", "whole", true)] ∧
    ¬ (runConditions ttDot rkStub "kanji" "word" false false false "a.b").length = 1 := by
  exact ⟨rfl, by decide⟩

/-- C6 amended: generation with extent_spec word and field_spec kanji yields
exactly one condition per resolved regexp mode — so exactly one condition
when regexp is forced or the query has no regexp-special character — and
every yielded condition has field kanji and extent normalized to whole. -/
theorem word_kanji_normalized (tt : TextTools) (rk : Romkan)
    (regexp cs fr : Bool) (query : String) :
    (runConditions tt rk "kanji" "word" regexp cs fr query).map
        (fun c => (c.field, c.extent, c.regexp))
      = (resolveRegexpFlags tt regexp query).map (fun r => ("kanji", "whole", r)) ∧
    (regexp = true ∨ tt.has_regexp_special query = false →
      (runConditions tt rk "kanji" "word" regexp cs fr query).length = 1) := by
  cases hr : regexp <;> cases hs : tt.has_regexp_special query <;>
    simp [runConditions, generatedList, generateConditions, resolveRegexpFlags,
      resolveExtents, resolveFields, normalizeExtent, genCondition, hs]

/-- C6 amended witness: a query with no regexp-special character yields the
single normalized condition. -/
theorem word_kanji_normalized_witness :
    (runConditions ttLatinOnly rkStub "kanji" "word" false false false "cat").length = 1 :=
  (word_kanji_normalized ttLatinOnly rkStub false false false "cat").2 (Or.inr rfl)

/-- C3 counterexample: for the query "cat" with auto field and auto extent
(regexp not forced, no regexp-special character), the condition tried second
is the reading whole condition — a reading-field condition is tried before
the gloss word condition (which sits at index 3), contradicting the claimed
gloss word, gloss partial progression ahead of any reading or kanji trial. -/
theorem cat_scenario_counterexample :
    ((runConditions ttLatinOnly rkStub "auto" "auto" false false false "cat").map
        (fun c => (c.field, c.extent))
      = [("gloss", "whole"), ("reading", "whole"), ("kanji", "whole"), ("gloss", "word"),
         ("gloss", "partial"), ("reading", "partial"), ("kanji", "partial")]) ∧
    ((runConditions ttLatinOnly rkStub "auto" "auto" false false false "cat").map
        (fun c => (c.field, c.extent))).indexOf ("reading", "whole")
      < ((runConditions ttLatinOnly rkStub "auto" "auto" false false false "cat").map
        (fun c => (c.field, c.extent))).indexOf ("gloss", "word") := by
  exact ⟨rfl, by decide⟩

/-- C3 amended: for a pure-Latin query such as "cat" (auto field, auto
extent, regexp not forced, no regexp-special character, not rōmaji-looking)
the first condition is gloss whole, but the cascade next tries reading whole
and kanji whole; gloss word and gloss partial come only after the whole
extent has been tried for all three fields, the gloss conditions still
appearing in the extent order whole, word, partial. -/
theorem cat_scenario_amended (tt : TextTools) (rk : Romkan) (cs fr : Bool)
    (query : String) (hl : tt.is_latin query = true)
    (hs : tt.has_regexp_special query = false) (hr : tt.is_romaji query = false) :
    (runConditions tt rk "auto" "auto" false cs fr query).map (fun c => (c.field, c.extent))
      = [("gloss", "whole"), ("reading", "whole"), ("kanji", "whole"), ("gloss", "word"),
         ("gloss", "partial"), ("reading", "partial"), ("kanji", "partial")] := by
  simp [runConditions, generatedList, generateConditions, resolveRegexpFlags,
    resolveExtents, resolveFields, normalizeExtent, genCondition, hl, hs, hr]

/-- C3 amended witness: the order evaluated on "cat" itself. -/
theorem cat_scenario_amended_witness :
    (runConditions ttLatinOnly rkStub "auto" "auto" false false false "cat").map
        (fun c => (c.field, c.extent))
      = [("gloss", "whole"), ("reading", "whole"), ("kanji", "whole"), ("gloss", "word"),
         ("gloss", "partial"), ("reading", "partial"), ("kanji", "partial")] :=
  cat_scenario_amended ttLatinOnly rkStub false false "cat" rfl rfl rfl

/-- C1: the cascade consumes the condition list strictly in order, invoking
the matcher once per condition: when every condition of `pre` yields an empty
result and `cond` yields the non-empty `ids`, the outcome is `cond` with
`ids`, the matcher is invoked exactly on `pre` then `cond` (nothing past the
first success is ever evaluated), and on an exhausted list the outcome is a
`none` winning condition with an empty identifier sequence. -/
theorem guess_first_nonempty (matcher : SearchArgs → Except MatcherError (List Nat))
    (pre post : List SearchArgs) (cond : SearchArgs) (ids : List Nat)
    (hpre : ∀ p ∈ pre, matcher p = .ok []) :
    (matcher cond = .ok ids → ids ≠ [] →
      guess matcher (pre ++ cond :: post) = .ok (some cond, ids) ∧
      guessCalls matcher (pre ++ cond :: post) = pre ++ [cond]) ∧
    (guess matcher pre = .ok (none, []) ∧ guessCalls matcher pre = pre) := by
  induction pre with
  | nil =>
    refine ⟨fun hc hids => ?_, by simp [guess, guessCalls]⟩
    simp [guess, guessCalls, hc, hids]
  | cons p ps ih =>
    have hp : matcher p = .ok [] := hpre p (by simp)
    have ihs := ih (fun q hq => hpre q (by simp [hq]))
    refine ⟨fun hc hids => ?_, ?_⟩
    · have := ihs.1 hc hids
      simp [guess, guessCalls, hp, this.1, this.2]
    · simp [guess, guessCalls, hp, ihs.2.1, ihs.2.2]

/-- C1 witness: with a matcher matching only partial-extent conditions, the
cascade on (whole, partial, word) stops at the partial condition, having
invoked the matcher on exactly the first two conditions, and the cascade on
(whole, word) alone ends with a none winner. -/
theorem guess_first_nonempty_witness :
    (guess matcherStub [condWhole, condPartial, condWord] = .ok (some condPartial, [7]) ∧
      guessCalls matcherStub [condWhole, condPartial, condWord] = [condWhole, condPartial]) ∧
    guess matcherStub [condWhole] = .ok (none, []) := by
  have h := guess_first_nonempty matcherStub [condWhole] [condWord] condPartial [7]
    (by intro p hp; simp at hp; subst hp; rfl)
  exact ⟨h.1 rfl (by decide), h.2.1⟩

/-- C9: exhausting every condition without a non-empty result is not an
error: the cascade returns a none winning condition and `run` returns `None`
(`.ok none`), while a matcher-boundary failure propagates as an error,
keeping the two outcomes distinct. -/
theorem no_match_not_error (matcher : SearchArgs → Except MatcherError (List Nat))
    (conds : List SearchArgs) :
    ((∀ cond ∈ conds, matcher cond = .ok []) →
      guess matcher conds = .ok (none, []) ∧ runResult matcher conds = .ok none) ∧
    (∀ cond rest e, matcher cond = .error e →
      runResult matcher (cond :: rest) = .error e) := by
  constructor
  · intro hall
    have hg : guess matcher conds = .ok (none, []) := by
      induction conds with
      | nil => simp [guess]
      | cons c cs ih =>
        have hc : matcher c = .ok [] := hall c (by simp)
        simp [guess, hc, ih (fun q hq => hall q (by simp [hq]))]
    exact ⟨hg, by simp [runResult, hg]⟩
  · intro cond rest e he
    simp [runResult, guess, he]

/-! Helper lemmas about insertion-based expansion. -/

/-- Inserting anywhere keeps the original list as an order-preserving
subsequence. -/
theorem sublist_insertIdx {α : Type} (n : Nat) (a : α) (l : List α) :
    l.Sublist (l.insertIdx n a) := by
  induction n generalizing l with
  | zero => simp [List.insertIdx_zero]
  | succ n ih =>
    cases l with
    | nil => simp [List.insertIdx]
    | cons b l => simpa [List.insertIdx_succ_cons] using List.Sublist.cons₂ b (ih l)

/-- A fold whose every step only grows the accumulator keeps the initial
accumulator as a subsequence. -/
theorem sublist_foldl {α β : Type} (f : List α → β → List α)
    (h : ∀ (acc : List α) (b : β), acc.Sublist (f acc b)) :
    ∀ (l : List β) (acc : List α), acc.Sublist (List.foldl f acc l) := by
  intro l
  induction l with
  | nil => intro acc; simp
  | cons b bs ih => intro acc; exact (h acc b).trans (ih (f acc b))

/-- One kana-variant insertion pass only grows the list. -/
theorem sublist_insertKanaVariants (tt : TextTools)
    (kana_guess : List (String → String)) (nc : List SearchArgs)
    (oldcond : SearchArgs) :
    nc.Sublist (insertKanaVariants tt kana_guess nc oldcond) := by
  unfold insertKanaVariants
  apply sublist_foldl
  intro acc kanafn
  exact sublist_foldl _ (fun acc2 romaji => sublist_insertIdx _ _ acc2) _ acc

/-- One expansion step only grows the list. -/
theorem sublist_expandStep (tt : TextTools) (kana_guess : List (String → String))
    (nc : List SearchArgs) (oldcond : SearchArgs) :
    nc.Sublist (expandStep tt kana_guess nc oldcond) := by
  unfold expandStep
  split
  · exact sublist_insertKanaVariants tt kana_guess nc oldcond
  · exact List.Sublist.refl nc

/-- C10: the transliteration-expansion step only inserts: the whole list
produced by the combinatorial generation pass survives, in the same relative
order and unmutated, as a subsequence of the final condition list, whether or
not expansion was triggered. -/
theorem expansion_only_inserts (tt : TextTools) (rk : Romkan)
    (field extent : String) (regexp cs fr : Bool) (query : String) :
    (generatedList tt field extent regexp cs fr query).Sublist
      (runConditions tt rk field extent regexp cs fr query) := by
  unfold runConditions
  split
  · exact sublist_foldl _ (fun acc old => sublist_expandStep tt _ acc old) _ _
  · exact List.Sublist.refl _

/-- Elements of a fold of insertions at the index of `old` are either from
the initial accumulator or one of the inserted images. -/
theorem mem_foldl_insertIdx {β : Type} (g : β → SearchArgs) (old : SearchArgs)
    (l : List β) :
    ∀ (acc : List SearchArgs),
      ∀ x ∈ l.foldl (fun nc r => nc.insertIdx (nc.indexOf old) (g r)) acc,
        x ∈ acc ∨ ∃ r ∈ l, x = g r := by
  induction l with
  | nil => intro acc x hx; exact Or.inl hx
  | cons r rs ih =>
    intro acc x hx
    rcases ih (acc.insertIdx (acc.indexOf old) (g r)) x hx with h | ⟨r', hr', rfl⟩
    · rcases (List.mem_insertIdx (List.indexOf_le_length)).mp h with h' | h'
      · exact Or.inr ⟨r, by simp, h'⟩
      · exact Or.inl h'
    · exact Or.inr ⟨r', by simp [hr'], rfl⟩

/-- Elements of a kana-variant insertion pass are either from the original
accumulator or copies of `oldcond` with a substituted query string. -/
theorem mem_insertKanaVariants (tt : TextTools)
    (kana_guess : List (String → String)) (oldcond : SearchArgs) :
    ∀ (nc : List SearchArgs), ∀ x ∈ insertKanaVariants tt kana_guess nc oldcond,
      x ∈ nc ∨ ∃ s, x = { oldcond with query := s } := by
  unfold insertKanaVariants
  induction kana_guess with
  | nil => intro nc x hx; exact Or.inl hx
  | cons kanafn fns ih =>
    intro nc x hx
    rcases ih _ x hx with h | h
    · rcases mem_foldl_insertIdx (fun romaji => { oldcond with query := kanafn romaji })
        oldcond _ nc x h with h' | ⟨r, _, rfl⟩
      · exact Or.inl h'
      · exact Or.inr ⟨kanafn r, rfl⟩
    · exact Or.inr h

/-- Every element of the expanded list is a copy of some generated condition
with a (possibly) substituted query string; the originals themselves arise
with their own query substituted. -/
theorem mem_expandConditions (tt : TextTools) (rk : Romkan) (query : String)
    (conds : List SearchArgs) :
    ∀ x ∈ expandConditions tt rk query conds,
      ∃ c ∈ conds, ∃ s, x = { c with query := s } := by
  unfold expandConditions
  have key : ∀ (todo : List SearchArgs), (∀ o ∈ todo, o ∈ conds) →
      ∀ (acc : List SearchArgs), (∀ x ∈ acc, ∃ c ∈ conds, ∃ s, x = { c with query := s }) →
      ∀ x ∈ todo.foldl (expandStep tt (kanaGuess rk query)) acc,
        ∃ c ∈ conds, ∃ s, x = { c with query := s } := by
    intro todo
    induction todo with
    | nil => intro _ acc hacc x hx; exact hacc x hx
    | cons o os ih =>
      intro hos acc hacc x hx
      refine ih (fun o' ho' => hos o' (by simp [ho'])) _ ?_ x hx
      intro y hy
      unfold expandStep at hy
      split at hy
      · rcases mem_insertKanaVariants tt (kanaGuess rk query) o acc y hy with h | ⟨s, rfl⟩
        · exact hacc y h
        · exact ⟨o, hos o (by simp), s, rfl⟩
      · exact hacc y hy
  refine key conds (fun o ho => ho) conds (fun x hx => ⟨x, hx, x.query, ?_⟩)
  cases x
  rfl

/-- Components of a condition emitted by the loop body: it carries the loop's
field and regexp mode, the shared query and flags, and the loop's extent
except for the word-for-kanji-or-reading substitution of an explicit word
request. -/
theorem genCondition_some (sa : SearchArgs) (es : String) (r : Bool) (e f : String)
    (c : SearchArgs) (h : genCondition sa es r e f = some c) :
    c.field = f ∧ c.regexp = r ∧ c.query = sa.query ∧
      c.case_sensitive = sa.case_sensitive ∧ c.frequent = sa.frequent ∧
      (c.extent = e ∨ c.extent = "whole") ∧ (es = "auto" → c.extent = e) := by
  unfold genCondition at h
  split at h
  · split at h
    · simp at h
    · rename_i hes
      cases h
      exact ⟨rfl, rfl, rfl, rfl, rfl, Or.inr rfl, fun ha => absurd ha hes⟩
  · cases h
    exact ⟨rfl, rfl, rfl, rfl, rfl, Or.inl rfl, fun _ => rfl⟩

/-- A flatMap is pairwise when each piece is pairwise and the relation holds
across pieces in list order. -/
theorem pairwise_flatMap {α β : Type} {R : β → β → Prop} {l : List α} {f : α → List β}
    (hin : ∀ a ∈ l, (f a).Pairwise R)
    (hcross : l.Pairwise (fun a b => ∀ x ∈ f a, ∀ y ∈ f b, R x y)) :
    (l.flatMap f).Pairwise R := by
  induction l with
  | nil => simp
  | cons a as ih =>
    rw [List.flatMap_cons, List.pairwise_append]
    rw [List.pairwise_cons] at hcross
    refine ⟨hin a (by simp), ih (fun b hb => hin b (by simp [hb])) hcross.2, ?_⟩
    intro x hx y hy
    obtain ⟨b, hb, hyb⟩ := List.mem_flatMap.mp hy
    exact hcross.1 b hb x hx y hyb

/-- In every resolved regexp-mode axis a literal pass precedes any regexp
pass. -/
theorem regexpFlags_pairwise (tt : TextTools) (regexp : Bool) (query : String) :
    (resolveRegexpFlags tt regexp query).Pairwise (fun r s => r = false ∧ s = true) := by
  unfold resolveRegexpFlags
  split
  · simp
  · split <;> simp

/-- Within the generated list, conditions are grouped by regexp mode in axis
order: once a regexp condition appears, all later conditions are regexp. -/
theorem generate_regexp_blocks (sa : SearchArgs) (es : String) (flags : List Bool)
    (extents fields : List String)
    (hflags : flags.Pairwise (fun r s => r = false ∧ s = true)) :
    (generateConditions sa es flags extents fields).Pairwise
      (fun a b => a.regexp = true → b.regexp = true) := by
  unfold generateConditions
  have hreg : ∀ (r : Bool) (x : SearchArgs),
      x ∈ (extents.flatMap fun e => fields.filterMap fun f => genCondition sa es r e f) →
      x.regexp = r := by
    intro r x hx
    obtain ⟨e, _, hx'⟩ := List.mem_flatMap.mp hx
    obtain ⟨f, _, hg⟩ := List.mem_filterMap.mp hx'
    exact (genCondition_some sa es r e f x hg).2.1
  refine pairwise_flatMap ?_ ?_
  · intro r _
    apply List.pairwise_of_forall_mem_list
    intro x hx y hy
    rw [hreg r x hx, hreg r y hy]
    exact id
  · refine hflags.imp ?_
    intro r s hrs x hx y hy
    rw [hreg r x hx, hreg s y hy, hrs.1, hrs.2]
    intro h
    exact absurd h (by simp)

/-- In the auto-extent pass, conditions within one regexp mode are grouped by
extent in the axis order whole, word, partial. -/
theorem generate_extent_blocks (sa : SearchArgs) (flags : List Bool)
    (fields : List String) (hflags : flags.Pairwise (fun r s => r = false ∧ s = true)) :
    (generateConditions sa "auto" flags ["whole", "word", "partial"] fields).Pairwise
      (fun a b => a.regexp = b.regexp → extentRank a.extent ≤ extentRank b.extent) := by
  unfold generateConditions
  have hmem : ∀ (r : Bool) (e : String) (x : SearchArgs),
      x ∈ (fields.filterMap fun f => genCondition sa "auto" r e f) →
      x.regexp = r ∧ x.extent = e := by
    intro r e x hx
    obtain ⟨f, _, hg⟩ := List.mem_filterMap.mp hx
    have h := genCondition_some sa "auto" r e f x hg
    exact ⟨h.2.1, h.2.2.2.2.2.2 rfl⟩
  refine pairwise_flatMap ?_ ?_
  · intro r _
    refine pairwise_flatMap ?_ ?_
    · intro e _
      apply List.pairwise_of_forall_mem_list
      intro x hx y hy _
      rw [(hmem r e x hx).2, (hmem r e y hy).2]
    · have hord : (["whole", "word", "partial"] : List String).Pairwise
          (fun e1 e2 => extentRank e1 ≤ extentRank e2) := by decide
      refine hord.imp ?_
      intro e1 e2 h12 x hx y hy _
      rw [(hmem r e1 x hx).2, (hmem r e2 y hy).2]
      exact h12
  · refine hflags.imp ?_
    intro r s hrs x hx y hy hxy
    obtain ⟨e1, _, hx'⟩ := List.mem_flatMap.mp hx
    obtain ⟨e2, _, hy'⟩ := List.mem_flatMap.mp hy
    rw [(hmem r e1 x hx').1, (hmem s e2 y hy').1, hrs.1, hrs.2] at hxy
    exact absurd hxy (by simp)

/-- C4: condition generation nests the axes with regexp modes outermost, then
extents, then fields innermost: in the generated list every non-regexp
condition precedes every regexp condition, and in the auto-extent pass (the
only pass trying more than one extent) conditions sharing a regexp mode are
grouped by extent in the broader-to-narrower order whole, word, partial, so
all field variations of one extent are emitted before the next extent. -/
theorem axes_nesting_order (tt : TextTools) (field extent : String)
    (regexp cs fr : Bool) (query : String)
    (i j : Fin (generatedList tt field extent regexp cs fr query).length)
    (hij : i < j) :
    (((generatedList tt field extent regexp cs fr query).get i).regexp = true →
      ((generatedList tt field extent regexp cs fr query).get j).regexp = true) ∧
    (extent = "auto" →
      ((generatedList tt field extent regexp cs fr query).get i).regexp
        = ((generatedList tt field extent regexp cs fr query).get j).regexp →
      extentRank (((generatedList tt field extent regexp cs fr query).get i).extent)
        ≤ extentRank (((generatedList tt field extent regexp cs fr query).get j).extent)) := by
  constructor
  · have hp : (generatedList tt field extent regexp cs fr query).Pairwise
        (fun a b => a.regexp = true → b.regexp = true) := by
      unfold generatedList
      exact generate_regexp_blocks _ _ _ _ _ (regexpFlags_pairwise tt regexp query)
    exact List.pairwise_iff_get.mp hp i j hij
  · intro hext
    subst hext
    have hp : (generatedList tt field "auto" regexp cs fr query).Pairwise
        (fun a b => a.regexp = b.regexp → extentRank a.extent ≤ extentRank b.extent) := by
      have hne : normalizeExtent "auto" field = "auto" := by
        unfold normalizeExtent
        rw [if_neg]
        rintro ⟨h, _⟩
        simp at h
      unfold generatedList
      rw [hne]
      exact generate_extent_blocks _ _ _ (regexpFlags_pairwise tt regexp query)
    exact List.pairwise_iff_get.mp hp i j hij

/-- C4 witness: in the list generated for "cat", the first two conditions
share the literal regexp mode and their extents are in nondecreasing rank. -/
theorem axes_nesting_order_witness :
    extentRank (((generatedList ttLatinOnly "auto" "auto" false false false "cat").get
        ⟨0, by decide⟩).extent)
      ≤ extentRank (((generatedList ttLatinOnly "auto" "auto" false false false "cat").get
        ⟨1, by decide⟩).extent) :=
  (axes_nesting_order ttLatinOnly "auto" "auto" false false false "cat"
    ⟨0, by decide⟩ ⟨1, by decide⟩ (by decide)).2 rfl rfl

/-- In an auto-extent generation pass, a stored word extent forces the gloss
field. -/
theorem generated_word_gloss (tt : TextTools) (regexp cs fr : Bool) (query : String) :
    ∀ c ∈ generatedList tt "auto" "auto" regexp cs fr query,
      c.extent = "word" → c.field = "gloss" := by
  intro c hc
  unfold generatedList generateConditions at hc
  simp only [List.mem_flatMap, List.mem_filterMap] at hc
  obtain ⟨r, _, e, _, f, _, hgen⟩ := hc
  have hne : normalizeExtent "auto" "auto" = "auto" := rfl
  rw [hne] at hgen
  unfold genCondition at hgen
  split at hgen
  · simp at hgen
  · rename_i hcond
    rw [not_and_or] at hcond
    intro hext
    cases hgen
    rcases hcond with h | h
    · exact absurd hext h
    · simpa using h

/-- C5: with extent_spec auto and field_spec auto, no condition of the final
list combines the word extent with the kanji or reading field: the
combination is skipped entirely. -/
theorem auto_no_word_kanji_reading (tt : TextTools) (rk : Romkan)
    (regexp cs fr : Bool) (query : String) :
    ∀ cond ∈ runConditions tt rk "auto" "auto" regexp cs fr query,
      ¬(cond.extent = "word" ∧ (cond.field = "kanji" ∨ cond.field = "reading")) := by
  intro cond hcond
  have base : cond ∈ generatedList tt "auto" "auto" regexp cs fr query ∨
      ∃ c ∈ generatedList tt "auto" "auto" regexp cs fr query, ∃ s,
        cond = { c with query := s } := by
    unfold runConditions at hcond
    split at hcond
    · rcases mem_expandConditions tt rk query _ cond hcond with ⟨c, hc, s, rfl⟩
      exact Or.inr ⟨c, hc, s, rfl⟩
    · exact Or.inl hcond
  rintro ⟨hw, hf⟩
  have : cond.field = "gloss" := by
    rcases base with h | ⟨c, hc, s, rfl⟩
    · exact generated_word_gloss tt regexp cs fr query cond h hw
    · exact generated_word_gloss tt regexp cs fr query c hc hw
  rcases hf with h | h <;> rw [this] at h <;> simp at h

/-- C5 witness: the gloss word condition generated for "cat" is not a
word-extent kanji or reading condition. -/
theorem auto_no_word_kanji_reading_witness :
    ¬(({ field := "gloss", query := "cat", extent := "word",
         regexp := false, case_sensitive := false, frequent := false } : SearchArgs).extent = "word" ∧
      (({ field := "gloss", query := "cat", extent := "word",
          regexp := false, case_sensitive := false, frequent := false } : SearchArgs).field = "kanji" ∨
       ({ field := "gloss", query := "cat", extent := "word",
          regexp := false, case_sensitive := false, frequent := false } : SearchArgs).field = "reading")) :=
  auto_no_word_kanji_reading ttLatinOnly rkStub false false false "cat"
    { field := "gloss", query := "cat", extent := "word",
      regexp := false, case_sensitive := false, frequent := false } (by decide)

/-! Helper lemmas describing the kana-variant insertion as a declarative
list-rebuilding pass. -/

/-- The index of an element standing right after a prefix not containing it. -/
theorem indexOf_prefix_self (old : SearchArgs) (pre post : List SearchArgs)
    (h : old ∉ pre) : (pre ++ old :: post).indexOf old = pre.length := by
  rw [List.indexOf_append_of_not_mem h, List.indexOf_cons_self]
  exact Nat.add_zero _

/-- Inserting at the length of a prefix lands between prefix and suffix. -/
theorem insertIdx_length_append {α : Type} (pre rest : List α) (x : α) :
    (pre ++ rest).insertIdx pre.length x = pre ++ x :: rest := by
  induction pre with
  | nil => simp [List.insertIdx_zero]
  | cons p ps ih => simpa [List.insertIdx_succ_cons] using ih

/-- Folding insertions at the index of `old` over a list of new elements,
none of which equals `old`, places them in order immediately before `old`. -/
theorem foldl_insert_block (old : SearchArgs) (ws : List SearchArgs) :
    ∀ (pre post : List SearchArgs), old ∉ pre → (∀ w ∈ ws, w ≠ old) →
      ws.foldl (fun nc w => nc.insertIdx (nc.indexOf old) w) (pre ++ old :: post)
        = pre ++ (ws ++ old :: post) := by
  induction ws with
  | nil => intro pre post _ _; simp
  | cons w ws ih =>
    intro pre post hpre hws
    rw [List.foldl_cons]
    have h1 : (pre ++ old :: post).indexOf old = pre.length :=
      indexOf_prefix_self old pre post hpre
    rw [h1, insertIdx_length_append]
    have h2 : pre ++ w :: old :: post = (pre ++ [w]) ++ old :: post := by simp
    have hp : old ∉ pre ++ [w] := by
      intro hmem
      rcases List.mem_append.mp hmem with h | h
      · exact hpre h
      · simp at h
        exact hws w (by simp) h.symm
    rw [h2, ih (pre ++ [w]) post hp (fun w' hw' => hws w' (by simp [hw']))]
    simp

/-- The nested kana-function and romaji-variant loops amount to one fold of
insertions over the flattened variant list. -/
theorem insertKanaVariants_eq_foldl (tt : TextTools) (kg : List (String → String))
    (old : SearchArgs) : ∀ (nc : List SearchArgs),
    insertKanaVariants tt kg nc old
      = (kg.flatMap fun kanafn => (tt.expand_romaji old.query).map
          fun romaji => { old with query := kanafn romaji }).foldl
        (fun nc2 w => nc2.insertIdx (nc2.indexOf old) w) nc := by
  unfold insertKanaVariants
  induction kg with
  | nil => intro nc; simp
  | cons kf kfs ih =>
    intro nc
    rw [List.foldl_cons, List.flatMap_cons, List.foldl_append, List.foldl_map]
    exact ih _

/-- The declarative reading of the expansion described by the spec (section
4.2): each reading-field condition is preceded by its kana variants — copies
substituting only the query string, ordered by kana function then expansion
variant — and every other condition is kept as is.  Stated from the spec's
words, to be compared with the imperative insertion of `expandConditions`. -/
def specExpand (tt : TextTools) (kana_guess : List (String → String))
    (conds : List SearchArgs) : List SearchArgs :=
  conds.flatMap fun c =>
    if c.field = "reading" then
      (kana_guess.flatMap fun kanafn =>
        (tt.expand_romaji c.query).map fun romaji => { c with query := kanafn romaji }) ++ [c]
    else [c]

/-- Elements of the declarative expansion are originals or kana variants. -/
theorem mem_specExpand (tt : TextTools) (kg : List (String → String))
    (conds : List SearchArgs) :
    ∀ x ∈ specExpand tt kg conds, x ∈ conds ∨ ∃ c ∈ conds, ∃ kanafn ∈ kg,
      ∃ romaji ∈ tt.expand_romaji c.query, x = { c with query := kanafn romaji } := by
  intro x hx
  unfold specExpand at hx
  obtain ⟨c, hc, hxc⟩ := List.mem_flatMap.mp hx
  by_cases hr : c.field = "reading"
  · rw [if_pos hr] at hxc
    rcases List.mem_append.mp hxc with h | h
    · obtain ⟨kanafn, hkf, h'⟩ := List.mem_flatMap.mp h
      obtain ⟨romaji, hrm, rfl⟩ := List.mem_map.mp h'
      exact Or.inr ⟨c, hc, kanafn, hkf, romaji, hrm, rfl⟩
    · simp at h
      subst h
      exact Or.inl hc
  · rw [if_neg hr] at hxc
    simp at hxc
    subst hxc
    exact Or.inl hc

/-- The declarative expansion distributes over append. -/
theorem specExpand_append (tt : TextTools) (kg : List (String → String))
    (l1 l2 : List SearchArgs) :
    specExpand tt kg (l1 ++ l2) = specExpand tt kg l1 ++ specExpand tt kg l2 := by
  unfold specExpand
  exact List.flatMap_append l1 l2 _

/-- The generated conditions are pairwise distinct: their (field, extent,
regexp) triples never coincide. -/
theorem nodup_generateConditions (sa : SearchArgs) (es : String)
    (flags : List Bool) (extents fields : List String)
    (hf : flags.Nodup) (he : extents.Nodup) (hfi : fields.Nodup)
    (hsing : es = "auto" ∨ ∃ e0, extents = [e0]) :
    (generateConditions sa es flags extents fields).Nodup := by
  unfold generateConditions
  rw [List.nodup_flatMap]
  constructor
  · intro r _
    rw [List.nodup_flatMap]
    constructor
    · intro e _
      refine List.Nodup.filterMap ?_ hfi
      intro f1 f2 c hc1 hc2
      rw [Option.mem_def] at hc1 hc2
      rw [← (genCondition_some sa es r e f1 c hc1).1,
        ← (genCondition_some sa es r e f2 c hc2).1]
    · rcases hsing with hes | ⟨e0, rfl⟩
      · refine he.imp ?_
        intro e1 e2 hne
        subst hes
        intro x hx1 hx2
        obtain ⟨f1, _, hg1⟩ := List.mem_filterMap.mp hx1
        obtain ⟨f2, _, hg2⟩ := List.mem_filterMap.mp hx2
        exact hne (((genCondition_some _ _ _ _ _ _ hg1).2.2.2.2.2.2 rfl).symm.trans
          ((genCondition_some _ _ _ _ _ _ hg2).2.2.2.2.2.2 rfl))
      · simp
  · refine hf.imp ?_
    intro r s hrs x hx1 hx2
    obtain ⟨e1, _, hx1'⟩ := List.mem_flatMap.mp hx1
    obtain ⟨e2, _, hx2'⟩ := List.mem_flatMap.mp hx2
    obtain ⟨f1, _, hg1⟩ := List.mem_filterMap.mp hx1'
    obtain ⟨f2, _, hg2⟩ := List.mem_filterMap.mp hx2'
    exact hrs (((genCondition_some _ _ _ _ _ _ hg1).2.1).symm.trans
      ((genCondition_some _ _ _ _ _ _ hg2).2.1))

/-- The generation pass never emits two equal conditions. -/
theorem nodup_generatedList (tt : TextTools) (field extent : String)
    (regexp cs fr : Bool) (query : String) :
    (generatedList tt field extent regexp cs fr query).Nodup := by
  unfold generatedList
  apply nodup_generateConditions
  · unfold resolveRegexpFlags
    split
    · simp
    · split <;> simp
  · unfold resolveExtents
    split
    · simp
    · decide
  · unfold resolveFields
    split
    · split
      · decide
      · split
        · decide
        · split <;> decide
    · simp
  · by_cases h : normalizeExtent extent field = "auto"
    · exact Or.inl h
    · refine Or.inr ⟨normalizeExtent extent field, ?_⟩
      unfold resolveExtents
      rw [if_pos h]

/-- Every generated condition carries the raw query string unchanged. -/
theorem generatedList_query (tt : TextTools) (field extent : String)
    (regexp cs fr : Bool) (query : String) :
    ∀ c ∈ generatedList tt field extent regexp cs fr query, c.query = query := by
  intro c hc
  unfold generatedList generateConditions at hc
  simp only [List.mem_flatMap, List.mem_filterMap] at hc
  obtain ⟨r, _, e, _, f, _, hg⟩ := hc
  exact (genCondition_some _ _ _ _ _ _ hg).2.2.1

/-- The imperative insertion pass of `expandConditions` computes exactly the
declarative list-rebuilding pass `specExpand`, provided the conditions are
pairwise distinct, all carry the raw query, and no kana rendering collides
with the raw query string. -/
theorem expandConditions_eq_spec (tt : TextTools) (rk : Romkan) (query : String)
    (conds : List SearchArgs) (hnd : conds.Nodup)
    (hq : ∀ c ∈ conds, c.query = query)
    (hk : ∀ kanafn ∈ kanaGuess rk query, ∀ romaji ∈ tt.expand_romaji query,
      kanafn romaji ≠ query) :
    expandConditions tt rk query conds = specExpand tt (kanaGuess rk query) conds := by
  unfold expandConditions
  set kg := kanaGuess rk query with hkg
  have key : ∀ (todo done : List SearchArgs),
      (done ++ todo).Nodup → (∀ c ∈ done ++ todo, c.query = query) →
      todo.foldl (expandStep tt kg) (specExpand tt kg done ++ todo)
        = specExpand tt kg (done ++ todo) := by
    intro todo
    induction todo with
    | nil =>
      intro done _ _
      simp
    | cons old rest ih =>
      intro done hnd' hq'
      have hold_query : old.query = query := hq' old (by simp)
      have hdone_old : old ∉ specExpand tt kg done := by
        intro hmem
        rcases mem_specExpand tt kg done old hmem with h | ⟨c, hc, kanafn, hkf, romaji, hrm, heq⟩
        · have hdisj := (List.nodup_append.mp hnd').2.2
          exact hdisj h (by simp)
        · have hcq : c.query = query := hq' c (by simp [hc])
          rw [hcq] at hrm
          have : kanafn romaji = query := by
            calc kanafn romaji = ({ c with query := kanafn romaji } : SearchArgs).query := rfl
            _ = old.query := by rw [heq]
            _ = query := hold_query
          exact hk kanafn hkf romaji hrm this
      have hws : ∀ w ∈ (kg.flatMap fun kanafn => (tt.expand_romaji old.query).map
          fun romaji => { old with query := kanafn romaji }), w ≠ old := by
        intro w hw heq
        obtain ⟨kanafn, hkf, hw'⟩ := List.mem_flatMap.mp hw
        obtain ⟨romaji, hrm, rfl⟩ := List.mem_map.mp hw'
        rw [hold_query] at hrm
        have : kanafn romaji = query := by
          calc kanafn romaji = ({ old with query := kanafn romaji } : SearchArgs).query := rfl
          _ = old.query := by rw [heq]
          _ = query := hold_query
        exact hk kanafn hkf romaji hrm this
      have hstep : expandStep tt kg (specExpand tt kg done ++ old :: rest) old
          = specExpand tt kg (done ++ [old]) ++ rest := by
        unfold expandStep
        by_cases hrd : old.field = "reading"
        · rw [if_pos hrd, insertKanaVariants_eq_foldl,
            foldl_insert_block old _ (specExpand tt kg done) rest hdone_old hws,
            specExpand_append]
          have hone : specExpand tt kg [old]
              = (kg.flatMap fun kanafn => (tt.expand_romaji old.query).map
                  fun romaji => { old with query := kanafn romaji }) ++ [old] := by
            unfold specExpand
            simp [hrd]
          rw [hone]
          simp
        · rw [if_neg hrd, specExpand_append]
          have hone : specExpand tt kg [old] = [old] := by
            unfold specExpand
            simp [hrd]
          rw [hone]
          simp
      rw [List.foldl_cons, hstep]
      have hassoc : done ++ old :: rest = (done ++ [old]) ++ rest := by simp
      rw [hassoc] at hnd' hq'
      rw [hassoc]
      exact ih (done ++ [old]) hnd' hq'
  have h0 := key conds [] (by simpa using hnd) (by simpa using hq)
  simpa [specExpand] using h0

/-- C7: for a rōmaji-looking query with field_spec auto or reading, and kana
renderings that never reproduce the raw query string, the final condition
list is exactly the generated list rebuilt so that each reading-field
condition is immediately preceded by its kana variants — copies of that
condition preserving extent, regexp mode, case-sensitivity and frequent-only
while substituting only the kana query — the kana functions applying
hiragana-first when the query has no uppercase letter and katakana-first when
it has one; hence every kana variant is tried strictly before its original
transliterated condition. -/
theorem romaji_expansion_inserts (tt : TextTools) (rk : Romkan)
    (field extent : String) (regexp cs fr : Bool) (query : String)
    (hfield : field = "auto" ∨ field = "reading") (hro : tt.is_romaji query = true)
    (hk : ∀ kanafn ∈ kanaGuess rk query, ∀ romaji ∈ tt.expand_romaji query,
      kanafn romaji ≠ query) :
    runConditions tt rk field extent regexp cs fr query
      = specExpand tt (kanaGuess rk query)
          (generatedList tt field extent regexp cs fr query) ∧
    (hasUpper query = false → kanaGuess rk query = [rk.to_hiragana, rk.to_katakana]) ∧
    (hasUpper query = true → kanaGuess rk query = [rk.to_katakana, rk.to_hiragana]) := by
  refine ⟨?_, fun h => by simp [kanaGuess, h], fun h => by simp [kanaGuess, h]⟩
  unfold runConditions
  rw [if_pos ⟨hfield, hro⟩]
  exact expandConditions_eq_spec tt rk query _
    (nodup_generatedList tt field extent regexp cs fr query)
    (generatedList_query tt field extent regexp cs fr query) hk

/-- C7 witness: for the rōmaji query "ka" with stub kana renderers, the final
list is the declarative rebuild, with hiragana tried first. -/
theorem romaji_expansion_inserts_witness :
    runConditions ttRomaji rkStub "auto" "auto" false false false "ka"
      = specExpand ttRomaji (kanaGuess rkStub "ka")
          (generatedList ttRomaji "auto" "auto" false false false "ka") ∧
    kanaGuess rkStub "ka" = [rkStub.to_hiragana, rkStub.to_katakana] := by
  have h := romaji_expansion_inserts ttRomaji rkStub "auto" "auto" false false false "ka"
    (Or.inl rfl) rfl ?hk
  · exact ⟨h.1, h.2.1 rfl⟩
  case hk =>
    intro kanafn hkf romaji hrm
    have hkg : kanaGuess rkStub "ka" = [rkStub.to_hiragana, rkStub.to_katakana] := rfl
    rw [hkg] at hkf
    simp only [List.mem_cons, List.not_mem_nil, or_false] at hkf
    have hrm' : romaji = "ka" := by
      simpa [ttRomaji] using hrm
    rcases hkf with rfl | rfl <;> subst hrm' <;> decide

/-- C9 witness: a cascade where no condition matches returns `.ok none`,
and a failing matcher propagates its error. -/
theorem no_match_not_error_witness :
    runResult matcherStub [condWhole, condWord] = .ok none ∧
    runResult (fun _ => .error .invalidPattern) [condWhole] = .error .invalidPattern := by
  refine ⟨((no_match_not_error matcherStub [condWhole, condWord]).1 ?_).2, ?_⟩
  · intro cond hc
    simp only [List.mem_cons, List.not_mem_nil, or_false] at hc
    rcases hc with rfl | rfl <;> rfl
  · exact (no_match_not_error (fun _ => .error .invalidPattern) [condWhole]).2
      condWhole [] .invalidPattern rfl

end MyougidenApi
